import Mathlib

/-!
Verification development for the graph engine of `forge-graph-viewer`
(`src/rust-projects/forge-graph-viewer/src/main.rs`).

The Rust code is shallowly embedded: `f32` coordinates become `ℚ`
(`f32::sqrt` is modelled by `Rat.sqrt`, which is exact on squares of
rationals), `HashMap`/`HashSet` iteration is modelled by insertion
order (the source never depends on a particular iteration order for
the properties below, only on set membership), and `Vec` indexing is
modelled by `List.getD` with a default (the source only indexes in
bounds, which the index-validity theorems establish).
-/

/-- One parsed markdown note: its file stem and its extracted outbound
wiki links (alias/anchor already stripped, deduplicated by the source's
`HashSet`).  Mirrors `struct Note`. -/
structure Note where
  name : String
  links : List String
deriving DecidableEq

/-- Mirrors `struct NodeData { name, x, y, is_orphan }`. -/
structure NodeData where
  name : String
  x : ℚ
  y : ℚ
  is_orphan : Bool
deriving DecidableEq

/-- Mirrors `struct EdgeData { from, to }` (`from` is a Lean keyword,
hence `fromIdx`/`toIdx`). -/
structure EdgeData where
  fromIdx : Nat
  toIdx : Nat
deriving DecidableEq

/-- Mirrors `struct GraphData { nodes, edges, node_map }`; the
`HashMap<String, usize>` becomes an association list. -/
structure GraphData where
  nodes : List NodeData
  edges : List EdgeData
  node_map : List (String × Nat)
deriving DecidableEq

/-- Default node used to totalize `Vec` indexing (`nodes[i]`). -/
def dNode : NodeData := ⟨"", 0, 0, false⟩

/-- First index of `x` in `l`, mirroring a `HashMap` built by
`for (i, v) in list.enumerate() { map.insert(v, i) }` looked up at `x`
(keys are distinct in the source, so first = only occurrence). -/
def idxOf? : List Nat → Nat → Option Nat
  | [], _ => none
  | a :: l, x => if a = x then some 0 else (idxOf? l x).map (· + 1)

/-- Same lookup for the name-keyed `node_map` of `parse_vault`. -/
def idxOfS? : List String → String → Option Nat
  | [], _ => none
  | a :: l, x => if a = x then some 0 else (idxOfS? l x).map (· + 1)

/-- The names of all parsed notes (`notes.keys()`). -/
def noteNames (notes : List Note) : List String :=
  notes.map (·.name)

/-- Models `incoming_links.contains(nm)` of `parse_vault` lines 550-556: some
note (possibly the one named `nm` itself) has an outbound link `l` with
`l = nm` or `l ++ ".md" = nm`. -/
def incoming (notes : List Note) (nm : String) : Bool :=
  notes.any fun n => n.links.any fun l => l == nm || (l ++ ".md") == nm

/-- Declarative counterpart of `incoming`: some document's resolved
outbound links target `nm` (bare-name or suffixed-name rule). -/
def TargetedByAny (notes : List Note) (nm : String) : Prop :=
  ∃ n ∈ notes, ∃ l ∈ n.links, l = nm ∨ l ++ ".md" = nm

/-- The claim's stricter predicate: some OTHER document's resolved
outbound links target `nm`. -/
def TargetedByOther (notes : List Note) (nm : String) : Prop :=
  ∃ n ∈ notes, n.name ≠ nm ∧ ∃ l ∈ n.links, l = nm ∨ l ++ ".md" = nm

/-- The list `nodes_to_include` of `parse_vault` lines 564-572: all note names,
or only the non-orphan (= targeted) ones when `filter_orphans` is set. -/
def includedNames (notes : List Note) (filter_orphans : Bool) : List String :=
  if filter_orphans then (noteNames notes).filter (fun nm => incoming notes nm)
  else noteNames notes

/-- Node construction of `parse_vault` lines 574-592.  The circle
placement (`radius * cos/sin(angle)`, transcendental in the source) is
abstracted by the position parameter `pos count i`; no claim depends on
the concrete trigonometric values. -/
def buildNodes (pos : Nat → Nat → ℚ × ℚ) (notes : List Note)
    (filter_orphans : Bool) : List NodeData :=
  let names := includedNames notes filter_orphans
  (List.range names.length).map fun i =>
    { name := names.getD i ("")
      x := (pos names.length i).1
      y := (pos names.length i).2
      is_orphan := !(incoming notes (names.getD i (""))) }

/-- Link-target resolution of `parse_vault` lines 599-605: exact name
first, then name with `.md` appended, else dropped. -/
def resolveTarget (notes : List Note) (link : String) : Option String :=
  if (noteNames notes).contains link then some link
  else if (noteNames notes).contains (link ++ ".md") then some (link ++ ".md")
  else none

/-- Edge construction of `parse_vault` lines 594-615. -/
def buildEdges (notes : List Note) (filter_orphans : Bool) : List EdgeData :=
  let names := includedNames notes filter_orphans
  notes.flatMap fun note =>
    match idxOfS? names note.name with
    | none => []
    | some fi =>
      note.links.filterMap fun link =>
        match resolveTarget notes link with
        | none => none
        | some t => (idxOfS? names t).map fun ti => EdgeData.mk fi ti

/-- Models `parse_vault` (graph-building part, lines 549-621), parameterized
by the abstract initial-position function. -/
def parse_vault (pos : Nat → Nat → ℚ × ℚ) (notes : List Note)
    (filter_orphans : Bool) : GraphData :=
  let names := includedNames notes filter_orphans
  { nodes := buildNodes pos notes filter_orphans
    edges := buildEdges notes filter_orphans
    node_map := (List.range names.length).map fun i => (names.getD i (""), i) }

/-- Mirrors `world_to_screen` (lines 194-200):
`center + (world + camera_pos) * zoom`, componentwise. -/
def world_to_screen (camX camY zoom cX cY wX wY : ℚ) : ℚ × ℚ :=
  (cX + (wX + camX) * zoom, cY + (wY + camY) * zoom)

/-- Mirrors `screen_to_world` (lines 186-192):
`(screen - center) / zoom - camera_pos`, componentwise. -/
def screen_to_world (camX camY zoom cX cY pX pY : ℚ) : ℚ × ℚ :=
  ((pX - cX) / zoom - camX, (pY - cY) / zoom - camY)

/-- Squared distance from a node to a world point. -/
def distSq (nd : NodeData) (wx wy : ℚ) : ℚ :=
  (nd.x - wx) * (nd.x - wx) + (nd.y - wy) * (nd.y - wy)

/-- The click predicate of `update` lines 367-372:
`dist < click_radius` with `click_radius = 10 / zoom`; the `f32`
comparison `sqrt(d2) < r` is encoded as `d2 < r * r` (equivalent for
the nonnegative radii produced by the clamped zoom). -/
def inRadius (nd : NodeData) (wx wy zoom : ℚ) : Bool :=
  distSq nd wx wy < (10 / zoom) * (10 / zoom)

/-- Hit-testing of `update` lines 367-373: `iter().enumerate().find`
returns the FIRST node (in index order) within the click radius. -/
def hitTest (nodes : List NodeData) (wx wy zoom : ℚ) : Option Nat :=
  match nodes with
  | [] => none
  | nd :: rest =>
    if inRadius nd wx wy zoom then some 0
    else (hitTest rest wx wy zoom).map (· + 1)

/-- The force-loop constants of `apply_forces` (lines 86-89):
`k = 30.0`, `damping = 0.9`, `repulsion_strength = 5000.0`,
`attraction_strength = 0.05`. -/
def springK : ℚ := 30

/-- Damping factor `0.9`. -/
def damping : ℚ := 9 / 10

/-- Repulsion strength `5000.0`. -/
def repulsion : ℚ := 5000

/-- Attraction strength `0.05`. -/
def attraction : ℚ := 1 / 20

/-- Models `forces[i] += v` on the force accumulator vector. -/
def addForce (fs : List (ℚ × ℚ)) (i : Nat) (v : ℚ × ℚ) : List (ℚ × ℚ) :=
  fs.set i ((fs.getD i (0, 0)).1 + v.1, (fs.getD i (0, 0)).2 + v.2)

/-- The index pairs of the nested repulsion loop
`for i in 0..n { for j in (i+1)..n { .. } }`. -/
def pairsUpTo (n : Nat) : List (Nat × Nat) :=
  (List.range n).flatMap fun i =>
    ((List.range n).filter (fun j => i < j)).map fun j => (i, j)

/-- Repulsive force of one `(i, j)` pair (lines 96-106): Coulomb
`5000 / d²` along the unit vector from node `i` to node `j`, with the
distance floored at `1.0`. -/
def repForce (nodes : List NodeData) (i j : Nat) : ℚ × ℚ :=
  let n1 := nodes.getD i dNode
  let n2 := nodes.getD j dNode
  let dx := n2.x - n1.x
  let dy := n2.y - n1.y
  let dist := max (Rat.sqrt (dx * dx + dy * dy)) 1
  let force := repulsion / (dist * dist)
  ((dx / dist) * force, (dy / dist) * force)

/-- Accumulation of all pairwise repulsions (lines 94-113):
`forces[i] -= f; forces[j] += f`. -/
def applyRep (nodes : List NodeData) (fs : List (ℚ × ℚ)) : List (ℚ × ℚ) :=
  (pairsUpTo nodes.length).foldl
    (fun fs p =>
      let f := repForce nodes p.1 p.2
      addForce (addForce fs p.1 (-f.1, -f.2)) p.2 f) fs

/-- Spring force of one edge (lines 116-127): Hooke
`(d - 30) * 0.05` along the unit vector from `from` to `to`, distance
floored at `1.0`. -/
def attrForce (nodes : List NodeData) (e : EdgeData) : ℚ × ℚ :=
  let nf := nodes.getD e.fromIdx dNode
  let nt := nodes.getD e.toIdx dNode
  let dx := nt.x - nf.x
  let dy := nt.y - nf.y
  let dist := max (Rat.sqrt (dx * dx + dy * dy)) 1
  let force := (dist - springK) * attraction
  ((dx / dist) * force, (dy / dist) * force)

/-- Accumulation of all edge attractions (lines 116-133):
`forces[from] += f; forces[to] -= f`. -/
def applyAttr (nodes : List NodeData) (edges : List EdgeData)
    (fs : List (ℚ × ℚ)) : List (ℚ × ℚ) :=
  edges.foldl
    (fun fs e =>
      let f := attrForce nodes e
      addForce (addForce fs e.fromIdx f) e.toIdx (-f.1, -f.2)) fs

/-- The full force vector of one `apply_forces` tick (lines 91-133). -/
def computeForces (g : GraphData) : List (ℚ × ℚ) :=
  applyAttr g.nodes g.edges
    (applyRep g.nodes (List.replicate g.nodes.length (0, 0)))

/-- Total kinetic energy `Σ (vx² + vy²)` (lines 136-148). -/
def energyOf (vs : List (ℚ × ℚ)) : ℚ :=
  vs.foldl (fun acc v => acc + v.1 * v.1 + v.2 * v.2) 0

/-- Result of one simulation tick: updated node list, updated
velocities, reported total kinetic energy. -/
structure StepResult where
  nodes : List NodeData
  vels : List (ℚ × ℚ)
  energy : ℚ
deriving DecidableEq

/-- The integration loop of `apply_forces` (lines 135-148):
`v = (v + f) * damping; pos += v`, then the kinetic-energy report. -/
def stepSim (g : GraphData) (vs : List (ℚ × ℚ)) : StepResult :=
  let fs := computeForces g
  let newVs := (List.range g.nodes.length).map fun i =>
    (((vs.getD i (0, 0)).1 + (fs.getD i (0, 0)).1) * damping,
     ((vs.getD i (0, 0)).2 + (fs.getD i (0, 0)).2) * damping)
  let newNodes := (List.range g.nodes.length).map fun i =>
    let nd := g.nodes.getD i dNode
    { nd with x := nd.x + (newVs.getD i (0, 0)).1,
              y := nd.y + (newVs.getD i (0, 0)).2 }
  ⟨newNodes, newVs, energyOf newVs⟩

/-- Undirected neighbor list of `extract_ego_network` lines 204-208:
each directed edge contributes to both endpoints' adjacency lists. -/
def nbrs (es : List EdgeData) (u : Nat) : List Nat :=
  es.foldr
    (fun e acc =>
      (if e.fromIdx = u then [e.toIdx] else []) ++
      (if e.toIdx = u then [e.fromIdx] else []) ++ acc) []

/-- Models `nodes_to_include.insert(v)` (line 220): the visited list plus the
freshly discovered frontier, appending only unseen nodes. -/
def insertNode (st : List Nat × List Nat) (v : Nat) : List Nat × List Nat :=
  if v ∈ st.1 then st else (st.1 ++ [v], st.2 ++ [v])

/-- Inner loop of lines 218-224: push every neighbor of `u`. -/
def expandNode (es : List EdgeData) (st : List Nat × List Nat) (u : Nat) :
    List Nat × List Nat :=
  (nbrs es u).foldl insertNode st

/-- One frontier expansion (lines 215-227), starting from an empty
`next_frontier`. -/
def bfsRound (es : List EdgeData) (inc fr : List Nat) :
    List Nat × List Nat :=
  fr.foldl (expandNode es) (inc, [])

/-- The `for _ in 0..hops` loop of lines 215-227. -/
def bfsLoop (es : List EdgeData) : Nat → List Nat → List Nat → List Nat
  | 0, inc, _ => inc
  | k + 1, inc, fr =>
    let p := bfsRound es inc fr
    bfsLoop es k p.1 p.2

/-- The set `nodes_to_include` after the BFS of lines 210-227 (the `HashSet`
enumerated in insertion order). -/
def egoInclude (es : List EdgeData) (center : Nat) (hops : Nat) : List Nat :=
  bfsLoop es hops [center] [center]

/-- Predicate `distLE es c k v`: the undirected BFS distance from `c` to `v` in
the edge list `es` is at most `k` (the specification-side notion the
BFS is checked against). -/
def distLE (es : List EdgeData) (c : Nat) : Nat → Nat → Bool
  | 0, v => v == c
  | k + 1, v => distLE es c k v || (nbrs es v).any fun m => distLE es c k m

/-- Predicate `distEq es c k v`: the undirected BFS distance is exactly `k`. -/
def distEq (es : List EdgeData) (c : Nat) : Nat → Nat → Bool
  | 0, v => v == c
  | k + 1, v => distLE es c (k + 1) v && !(distLE es c k v)

/-- Remap of one parent edge through `new_node_map` (lines 240-250). -/
def remapEdge (inc : List Nat) (e : EdgeData) : Option EdgeData :=
  match idxOf? inc e.fromIdx, idxOf? inc e.toIdx with
  | some nf, some nt => some ⟨nf, nt⟩
  | _, _ => none

/-- The graph produced by `extract_ego_network` (lines 229-260): nodes
copied in (insertion-ordered) set order, edges kept iff both endpoints
survive and remapped into the new index space; `node_map` left empty as
in the source. -/
def extract_ego_graph (g : GraphData) (center hops : Nat) : GraphData :=
  let inc := egoInclude g.edges center hops
  { nodes := inc.map fun old => g.nodes.getD old dNode
    edges := g.edges.filterMap (remapEdge inc)
    node_map := [] }

/-- Mirrors `enum EgoMode`. -/
inductive EgoMode where
  | Full
  | OneHop
  | TwoHop
deriving DecidableEq

/-- The engine-relevant fields of `struct ForgeGraphViewer` (camera and
input plumbing omitted: no claim touches them). -/
structure AppState where
  graph : GraphData
  full_graph : GraphData
  velocities : List (ℚ × ℚ)
  selected_node : Option Nat
  simulation_running : Bool
  ego_mode : EgoMode
deriving DecidableEq

/-- Mirrors `ForgeGraphViewer::new` (lines 57-79) after `parse_vault` returned
`g`: both graph views hold the built graph, velocities are zeroed, and
the simulation starts disabled. -/
def newViewer (g : GraphData) : AppState :=
  { graph := g
    full_graph := g
    velocities := List.replicate g.nodes.length (0, 0)
    selected_node := none
    simulation_running := false
    ego_mode := EgoMode.Full }

/-- Mirrors `extract_ego_network` (lines 202-266) as a state transition: the
active graph is replaced by the extraction FROM `full_graph`, the
selection is remapped, velocities are re-zeroed; `full_graph` is read
but never written. -/
def extract_ego_network (s : AppState) (center hops : Nat) : AppState :=
  let g2 := extract_ego_graph s.full_graph center hops
  { s with graph := g2
           selected_node := idxOf? (egoInclude s.full_graph.edges center hops) center
           velocities := List.replicate g2.nodes.length (0, 0) }

/-- Mirrors `reset_to_full_graph` (lines 268-273). -/
def reset_to_full_graph (s : AppState) : AppState :=
  { s with graph := s.full_graph
           velocities := List.replicate s.full_graph.nodes.length (0, 0)
           ego_mode := EgoMode.Full }

/-- Mirrors `apply_forces` (lines 81-155) as a state transition, including the
`simulation_running` gate and the stabilization cutoff at energy 1.0. -/
def apply_forces (s : AppState) : AppState :=
  if s.simulation_running = false then s
  else
    let r := stepSim s.graph s.velocities
    { s with graph := { s.graph with nodes := r.nodes }
             velocities := r.vels
             simulation_running := if r.energy < 1 then false else true }

/-- The state-mutating engine operations a session can perform. -/
inductive AppOp where
  | extractOp (center hops : Nat)
  | resetOp
  | stepOp
deriving DecidableEq

/-- Apply one operation. -/
def applyOp (s : AppState) : AppOp → AppState
  | AppOp.extractOp c h => extract_ego_network s c h
  | AppOp.resetOp => reset_to_full_graph s
  | AppOp.stepOp => apply_forces s

/-- Run a sequence of operations. -/
def runOps (s : AppState) : List AppOp → AppState
  | [] => s
  | op :: ops => runOps (applyOp s op) ops

/-- Trivial position function for concrete test vaults. -/
def posZero : Nat → Nat → ℚ × ℚ := fun _ _ => (0, 0)

/-- Concrete vault: A links to B, B has no links. -/
def notesAB : List Note := [⟨"A", ["B"]⟩, ⟨"B", []⟩]

/-- Concrete vault with a single self-linking note. -/
def notesSelf : List Note := [⟨"A", ["A"]⟩]

/-- Concrete node list for hit-testing: index 0 at distance 5 from the
origin, index 1 at distance 1. -/
def nodesHit : List NodeData := [⟨"a", 5, 0, false⟩, ⟨"b", 1, 0, false⟩]

/-- Concrete two-node graph with one edge 0 → 1. -/
def gPath : GraphData := ⟨[⟨"a", 0, 0, false⟩, ⟨"b", 0, 0, false⟩], [⟨0, 1⟩], []⟩

/-- Concrete two-node edgeless graph, nodes 100 apart on the x-axis. -/
def gTwo : GraphData := ⟨[⟨"a", 0, 0, false⟩, ⟨"b", 100, 0, false⟩], [], []⟩

/-- Concrete one-node graph carrying a self-loop edge. -/
def gOne : GraphData := ⟨[⟨"a", 3, 4, false⟩], [⟨0, 0⟩], []⟩

/-- Concrete one-node edgeless graph. -/
def gOneV : GraphData := ⟨[⟨"a", 0, 0, false⟩], [], []⟩

/-- Node positions after one simulation tick on `gTwo` from rest. -/
def c7nodes1 : List NodeData := [⟨"a", -9/20, 0, false⟩, ⟨"b", 2009/20, 0, false⟩]

/-- Velocities after one simulation tick on `gTwo` from rest. -/
def c7vels1 : List (ℚ × ℚ) := [(-9/20, 0), (9/20, 0)]

lemma incoming_iff_targeted (notes : List Note) (nm : String) :
    incoming notes nm = true ↔ TargetedByAny notes nm := by
  simp [incoming, TargetedByAny, List.any_eq_true]

lemma mem_buildNodes_orphan {pos : Nat → Nat → ℚ × ℚ} {notes : List Note}
    {fo : Bool} {nd : NodeData} (h : nd ∈ buildNodes pos notes fo) :
    nd.is_orphan = !(incoming notes nd.name) := by
  simp only [buildNodes, List.mem_map, List.mem_range] at h
  obtain ⟨i, -, rfl⟩ := h
  rfl

/-- Claim C1 (amended): in every built graph, a document's `is_orphan`
flag is true iff no document's resolved outbound links target it —
where, unlike the original claim, the targeting documents include the
document itself: a self-link prevents orphan status. -/
theorem C1_orphan_iff (pos : Nat → Nat → ℚ × ℚ) (notes : List Note) (fo : Bool)
    (nd : NodeData) (h : nd ∈ (parse_vault pos notes fo).nodes) :
    nd.is_orphan = true ↔ ¬ TargetedByAny notes nd.name := by
  have h2 : nd.is_orphan = !(incoming notes nd.name) :=
    mem_buildNodes_orphan (show nd ∈ buildNodes pos notes fo from h)
  rw [h2, Bool.not_eq_true', ← incoming_iff_targeted]
  simp

/-- Claim C1, original form, refuted: in the vault whose only note `A`
links to itself, the built graph marks `A` as NOT an orphan, yet no
OTHER document's resolved outbound links target `A` — so
`is_orphan = true iff not targeted by another document` fails at `A`. -/
theorem C1_counterexample :
    ((parse_vault posZero notesSelf false).nodes.map
      fun nd => (nd.name, nd.is_orphan)) = [("A", false)] ∧
    ¬ TargetedByOther notesSelf ("A") := by
  constructor
  · rfl
  · rintro ⟨n, hn, hne, -⟩
    simp [notesSelf] at hn
    subst hn
    exact hne rfl

/-- Witness for C1: in the vault `A → {B}`, `B → {}`, node `A` is in
the built graph with `is_orphan = true`, and the theorem instantiates
at it. -/
theorem C1_witness :
    (⟨"A", 0, 0, true⟩ : NodeData) ∈ (parse_vault posZero notesAB false).nodes ∧
    ((⟨"A", 0, 0, true⟩ : NodeData).is_orphan = true ↔
      ¬ TargetedByAny notesAB ("A")) :=
  ⟨by decide, C1_orphan_iff posZero notesAB false _ (by decide)⟩

/-- Claim C5: `screen_to_world` inverts `world_to_screen` exactly over
the rationals whenever the zoom factor is nonzero. -/
theorem C5_viewport_roundtrip (camX camY zoom cX cY wX wY : ℚ)
    (hz : zoom ≠ 0) :
    screen_to_world camX camY zoom cX cY
      (world_to_screen camX camY zoom cX cY wX wY).1
      (world_to_screen camX camY zoom cX cY wX wY).2 = (wX, wY) := by
  simp only [world_to_screen, screen_to_world]
  rw [Prod.mk.injEq]
  constructor <;> (field_simp)

/-- Witness for C5 at a concrete camera, zoom 2, screen center and
world point. -/
theorem C5_witness :
    (2 : ℚ) ≠ 0 ∧
    screen_to_world 1 2 2 3 4
      (world_to_screen 1 2 2 3 4 5 6).1
      (world_to_screen 1 2 2 3 4 5 6).2 = (5, 6) :=
  ⟨by norm_num, C5_viewport_roundtrip 1 2 2 3 4 5 6 (by norm_num)⟩

lemma idxOf?_lt {l : List Nat} {x i : Nat} (h : idxOf? l x = some i) :
    i < l.length := by
  induction l generalizing i with
  | nil => simp [idxOf?] at h
  | cons a t ih =>
    by_cases hax : a = x
    · simp [idxOf?, hax] at h
      simp only [List.length_cons]
      omega
    · simp only [idxOf?, if_neg hax, Option.map_eq_some'] at h
      obtain ⟨j, hj, rfl⟩ := h
      have := ih hj
      simp only [List.length_cons]
      omega

lemma idxOf?_mem {l : List Nat} {x i : Nat} (h : idxOf? l x = some i) :
    x ∈ l := by
  induction l generalizing i with
  | nil => simp [idxOf?] at h
  | cons a t ih =>
    by_cases hax : a = x
    · simp [hax]
    · simp only [idxOf?, if_neg hax, Option.map_eq_some'] at h
      obtain ⟨j, hj, rfl⟩ := h
      exact List.mem_cons_of_mem a (ih hj)

lemma mem_idxOf? {l : List Nat} {x : Nat} (h : x ∈ l) :
    ∃ i, idxOf? l x = some i := by
  induction l with
  | nil => simp at h
  | cons a t ih =>
    by_cases hax : a = x
    · exact ⟨0, by simp [idxOf?, hax]⟩
    · have hxt : x ∈ t := by
        rcases List.mem_cons.mp h with h1 | h1
        · exact absurd h1.symm hax
        · exact h1
      obtain ⟨j, hj⟩ := ih hxt
      exact ⟨j + 1, by simp [idxOf?, hax, hj]⟩

lemma idxOfS?_lt {l : List String} {x : String} {i : Nat}
    (h : idxOfS? l x = some i) : i < l.length := by
  induction l generalizing i with
  | nil => simp [idxOfS?] at h
  | cons a t ih =>
    by_cases hax : a = x
    · simp [idxOfS?, hax] at h
      simp only [List.length_cons]
      omega
    · simp only [idxOfS?, if_neg hax, Option.map_eq_some'] at h
      obtain ⟨j, hj, rfl⟩ := h
      have := ih hj
      simp only [List.length_cons]
      omega

lemma parse_vault_nodes_length (pos : Nat → Nat → ℚ × ℚ)
    (notes : List Note) (fo : Bool) :
    (parse_vault pos notes fo).nodes.length =
      (includedNames notes fo).length := by
  simp [parse_vault, buildNodes]

lemma mem_buildEdges {notes : List Note} {fo : Bool} {e : EdgeData}
    (h : e ∈ buildEdges notes fo) :
    (∃ i, idxOfS? (includedNames notes fo) i = some e.fromIdx) ∧
    (∃ i, idxOfS? (includedNames notes fo) i = some e.toIdx) := by
  simp only [buildEdges, List.mem_flatMap] at h
  obtain ⟨note, -, he⟩ := h
  cases hm : idxOfS? (includedNames notes fo) note.name with
  | none => rw [hm] at he; simp at he
  | some fi =>
    rw [hm] at he
    simp only [List.mem_filterMap] at he
    obtain ⟨link, -, hf⟩ := he
    cases hr : resolveTarget notes link with
    | none => rw [hr] at hf; simp at hf
    | some t =>
      rw [hr] at hf
      simp only [Option.map_eq_some'] at hf
      obtain ⟨ti, hti, rfl⟩ := hf
      exact ⟨⟨note.name, hm⟩, ⟨t, hti⟩⟩

lemma mem_remapEdge {inc : List Nat} {e e2 : EdgeData}
    (h : remapEdge inc e = some e2) :
    ∃ a b, idxOf? inc e.fromIdx = some a ∧ idxOf? inc e.toIdx = some b ∧
      e2 = ⟨a, b⟩ := by
  unfold remapEdge at h
  cases hf : idxOf? inc e.fromIdx with
  | none => rw [hf] at h; simp at h
  | some a =>
    cases ht : idxOf? inc e.toIdx with
    | none => rw [hf, ht] at h; simp at h
    | some b =>
      rw [hf, ht] at h
      exact ⟨a, b, rfl, rfl, (Option.some.injEq _ _).mp h.symm⟩

/-- Claim C4: every edge of a graph produced by the builder (with or
without orphan filtering) and every edge of an extracted ego graph has
both endpoints strictly below the owning graph's node count. -/
theorem C4_edge_index_validity :
    (∀ (pos : Nat → Nat → ℚ × ℚ) (notes : List Note) (fo : Bool),
      ∀ e ∈ (parse_vault pos notes fo).edges,
        e.fromIdx < (parse_vault pos notes fo).nodes.length ∧
        e.toIdx < (parse_vault pos notes fo).nodes.length) ∧
    (∀ (g : GraphData) (c h : Nat),
      ∀ e ∈ (extract_ego_graph g c h).edges,
        e.fromIdx < (extract_ego_graph g c h).nodes.length ∧
        e.toIdx < (extract_ego_graph g c h).nodes.length) := by
  constructor
  · intro pos notes fo e he
    have he2 : e ∈ buildEdges notes fo := he
    obtain ⟨⟨i1, h1⟩, ⟨i2, h2⟩⟩ := mem_buildEdges he2
    rw [parse_vault_nodes_length]
    exact ⟨idxOfS?_lt h1, idxOfS?_lt h2⟩
  · intro g c h e he
    have hlen : (extract_ego_graph g c h).nodes.length =
        (egoInclude g.edges c h).length := by
      simp [extract_ego_graph]
    simp only [extract_ego_graph, List.mem_filterMap] at he
    obtain ⟨e0, -, hre⟩ := he
    obtain ⟨a, b, ha, hb, rfl⟩ := mem_remapEdge hre
    rw [hlen]
    exact ⟨idxOf?_lt ha, idxOf?_lt hb⟩

/-- Witness for C4: the vault `A → {B}` builds the single edge
`(0, 1)`, whose endpoints are below the node count 2, and the
extraction of the 1-hop ego graph around node 0 of `gPath` keeps its
single remapped edge in bounds. -/
theorem C4_witness :
    (EdgeData.mk 0 1 ∈ (parse_vault posZero notesAB false).edges ∧
      (EdgeData.mk 0 1).fromIdx < (parse_vault posZero notesAB false).nodes.length ∧
      (EdgeData.mk 0 1).toIdx < (parse_vault posZero notesAB false).nodes.length) ∧
    (EdgeData.mk 0 1 ∈ (extract_ego_graph gPath 0 1).edges ∧
      (EdgeData.mk 0 1).fromIdx < (extract_ego_graph gPath 0 1).nodes.length ∧
      (EdgeData.mk 0 1).toIdx < (extract_ego_graph gPath 0 1).nodes.length) :=
  ⟨⟨by decide, C4_edge_index_validity.1 posZero notesAB false _ (by decide)⟩,
   ⟨by decide, C4_edge_index_validity.2 gPath 0 1 _ (by decide)⟩⟩

lemma hitTest_some_first {nodes : List NodeData} {wx wy zoom : ℚ} {i : Nat}
    (h : hitTest nodes wx wy zoom = some i) :
    i < nodes.length ∧ inRadius (nodes.getD i dNode) wx wy zoom = true ∧
    ∀ j < i, inRadius (nodes.getD j dNode) wx wy zoom = false := by
  induction nodes generalizing i with
  | nil => simp [hitTest] at h
  | cons nd rest ih =>
    by_cases hr : inRadius nd wx wy zoom
    · simp only [hitTest, if_pos hr] at h
      obtain rfl : (0 : Nat) = i := Option.some.inj h
      refine ⟨by simp, by simpa using hr, ?_⟩
      intro j hj
      omega
    · simp only [hitTest, if_neg hr, Option.map_eq_some'] at h
      obtain ⟨j, hj, rfl⟩ := h
      obtain ⟨hlt, hin, hfirst⟩ := ih hj
      refine ⟨by simp only [List.length_cons]; omega, by simpa using hin, ?_⟩
      intro j2 hj2
      cases j2 with
      | zero => simpa using Bool.not_eq_true _ ▸ (by simpa using hr)
      | succ k =>
        have : k < j := by omega
        simpa using hfirst k this

lemma hitTest_none_iff {nodes : List NodeData} {wx wy zoom : ℚ} :
    hitTest nodes wx wy zoom = none ↔
      ∀ nd ∈ nodes, inRadius nd wx wy zoom = false := by
  induction nodes with
  | nil => simp [hitTest]
  | cons nd rest ih =>
    by_cases hr : inRadius nd wx wy zoom
    · simp [hitTest, if_pos hr, hr]
    · simp only [hitTest, if_neg hr, Option.map_eq_none', ih,
        List.mem_cons]
      constructor
      · intro hall nd2 h2
        rcases h2 with rfl | h2
        · exact Bool.not_eq_true _ ▸ (by simpa using hr)
        · exact hall nd2 h2
      · intro hall nd2 h2
        exact hall nd2 (Or.inr h2)

/-- Claim C6 (amended): a click selects the FIRST node in index order
whose world-space distance to the click is within `10 / zoom` (not
necessarily the nearest one); when no node is within that radius the
hit test returns `none` and the selection is cleared. -/
theorem C6_first_hit (nodes : List NodeData) (wx wy zoom : ℚ)
    (hz : 0 < zoom) :
    (∀ i, hitTest nodes wx wy zoom = some i →
      i < nodes.length ∧ inRadius (nodes.getD i dNode) wx wy zoom = true ∧
      ∀ j < i, inRadius (nodes.getD j dNode) wx wy zoom = false) ∧
    (hitTest nodes wx wy zoom = none ↔
      ∀ nd ∈ nodes, inRadius nd wx wy zoom = false) :=
  ⟨fun _ h => hitTest_some_first h, hitTest_none_iff⟩

/-- Claim C6, original form, refuted: clicking the origin at zoom 1
with node 0 at distance 5 and node 1 at distance 1 (both inside the
radius 10) selects node 0, although node 1 is strictly nearer — the
selected node is NOT the nearest node within the radius. -/
theorem C6_counterexample :
    hitTest nodesHit 0 0 1 = some 0 ∧
    inRadius (⟨"b", 1, 0, false⟩ : NodeData) 0 0 1 = true ∧
    distSq (⟨"b", 1, 0, false⟩ : NodeData) 0 0 <
      distSq (⟨"a", 5, 0, false⟩ : NodeData) 0 0 := by
  refine ⟨?_, ?_, ?_⟩
  · have h5 : inRadius (⟨"a", 5, 0, false⟩ : NodeData) 0 0 1 = true := by
      simp only [inRadius, distSq]
      norm_num
    simp [nodesHit, hitTest, h5]
  · simp only [inRadius, distSq]
    norm_num
  · simp only [distSq]
    norm_num

/-- Witness for C6 at zoom 1 over the concrete node list. -/
theorem C6_witness :
    (0 : ℚ) < 1 ∧
    (hitTest nodesHit 0 0 1 = none ↔
      ∀ nd ∈ nodesHit, inRadius nd 0 0 1 = false) :=
  ⟨by norm_num, (C6_first_hit nodesHit 0 0 1 (by norm_num)).2⟩

lemma mem_nbrs {es : List EdgeData} {u v : Nat} :
    v ∈ nbrs es u ↔
      ∃ e ∈ es, (e.fromIdx = u ∧ e.toIdx = v) ∨
        (e.toIdx = u ∧ e.fromIdx = v) := by
  induction es with
  | nil => simp [nbrs]
  | cons e t ih =>
    have hc : nbrs (e :: t) u = (if e.fromIdx = u then [e.toIdx] else []) ++
        ((if e.toIdx = u then [e.fromIdx] else []) ++ nbrs t u) := by
      simp [nbrs]
    rw [hc]
    simp only [List.mem_append, ih]
    constructor
    · rintro (hv | hv | hv)
      · by_cases h1 : e.fromIdx = u
        · rw [if_pos h1] at hv
          have hv2 : v = e.toIdx := by simpa using hv
          exact ⟨e, List.mem_cons_self e t, Or.inl ⟨h1, hv2.symm⟩⟩
        · rw [if_neg h1] at hv
          simp at hv
      · by_cases h2 : e.toIdx = u
        · rw [if_pos h2] at hv
          have hv2 : v = e.fromIdx := by simpa using hv
          exact ⟨e, List.mem_cons_self e t, Or.inr ⟨h2, hv2.symm⟩⟩
        · rw [if_neg h2] at hv
          simp at hv
      · obtain ⟨e2, he2, hp⟩ := hv
        exact ⟨e2, List.mem_cons_of_mem e he2, hp⟩
    · rintro ⟨e2, he2, hp⟩
      rcases List.mem_cons.mp he2 with rfl | he2
      · rcases hp with ⟨h1, h2⟩ | ⟨h1, h2⟩
        · left
          rw [if_pos h1]
          simp [h2]
        · right
          left
          rw [if_pos h1]
          simp [h2]
      · right
        right
        exact ⟨e2, he2, hp⟩

lemma mem_nbrs_symm {es : List EdgeData} {u v : Nat} :
    v ∈ nbrs es u ↔ u ∈ nbrs es v := by
  simp only [mem_nbrs]
  constructor <;> (rintro ⟨e, he, hc⟩; exact ⟨e, he, by tauto⟩)

lemma insertFold_fst_mem {l : List Nat} :
    ∀ {st : List Nat × List Nat} {w : Nat},
      w ∈ (l.foldl insertNode st).1 ↔ w ∈ st.1 ∨ w ∈ l := by
  induction l with
  | nil => intro st w; simp
  | cons a t ih =>
    intro st w
    rw [List.foldl_cons, ih]
    by_cases h : a ∈ st.1
    · simp only [insertNode, if_pos h, List.mem_cons]
      constructor
      · rintro (h1 | h1)
        · exact Or.inl h1
        · exact Or.inr (Or.inr h1)
      · rintro (h1 | rfl | h1)
        · exact Or.inl h1
        · exact Or.inl h
        · exact Or.inr h1
    · simp only [insertNode, if_neg h, List.mem_append, List.mem_singleton,
        List.mem_cons]
      tauto

lemma insertNode_fst_eq {st : List Nat × List Nat} {pre : List Nat}
    (h : st.1 = pre ++ st.2) (a : Nat) :
    (insertNode st a).1 = pre ++ (insertNode st a).2 := by
  unfold insertNode
  by_cases hm : a ∈ st.1
  · rw [if_pos hm]
    exact h
  · rw [if_neg hm]
    show st.1 ++ [a] = pre ++ (st.2 ++ [a])
    rw [h, List.append_assoc]

lemma insertNode_snd_fresh {st : List Nat × List Nat} {pre : List Nat}
    (h : st.1 = pre ++ st.2) (hf : ∀ w ∈ st.2, w ∉ pre) (a : Nat) :
    ∀ w ∈ (insertNode st a).2, w ∉ pre := by
  unfold insertNode
  by_cases hm : a ∈ st.1
  · simpa [hm] using hf
  · simp only [if_neg hm]
    intro w hw
    rcases List.mem_append.mp hw with h1 | h1
    · exact hf w h1
    · have hwa : w = a := by simpa using h1
      subst hwa
      intro hp
      exact hm (by rw [h]; exact List.mem_append.mpr (Or.inl hp))

lemma insertFold_fst_append {l : List Nat} :
    ∀ {st : List Nat × List Nat} {pre : List Nat},
      st.1 = pre ++ st.2 →
      (l.foldl insertNode st).1 = pre ++ (l.foldl insertNode st).2 := by
  induction l with
  | nil => intro st pre h; exact h
  | cons a t ih =>
    intro st pre h
    rw [List.foldl_cons]
    exact ih (insertNode_fst_eq h a)

lemma insertFold_snd_fresh {l : List Nat} :
    ∀ {st : List Nat × List Nat} {pre : List Nat},
      st.1 = pre ++ st.2 → (∀ w ∈ st.2, w ∉ pre) →
      ∀ w ∈ (l.foldl insertNode st).2, w ∉ pre := by
  induction l with
  | nil => intro st pre _ hf; exact hf
  | cons a t ih =>
    intro st pre h hf
    rw [List.foldl_cons]
    exact ih (insertNode_fst_eq h a) (insertNode_snd_fresh h hf a)

lemma foldl_expand_eq {es : List EdgeData} {fr : List Nat} :
    ∀ {st : List Nat × List Nat},
      fr.foldl (expandNode es) st =
        (fr.flatMap (nbrs es)).foldl insertNode st := by
  induction fr with
  | nil => intro st; rfl
  | cons u t ih =>
    intro st
    rw [List.foldl_cons, List.flatMap_cons, List.foldl_append]
    exact ih

lemma bfsRound_fst_mem {es : List EdgeData} {inc fr : List Nat} {w : Nat} :
    w ∈ (bfsRound es inc fr).1 ↔ w ∈ inc ∨ ∃ u ∈ fr, w ∈ nbrs es u := by
  unfold bfsRound
  rw [foldl_expand_eq, insertFold_fst_mem]
  simp [List.mem_flatMap]

lemma bfsRound_fst_append {es : List EdgeData} {inc fr : List Nat} :
    (bfsRound es inc fr).1 = inc ++ (bfsRound es inc fr).2 := by
  unfold bfsRound
  rw [foldl_expand_eq]
  exact insertFold_fst_append (by simp)

lemma bfsRound_snd_fresh {es : List EdgeData} {inc fr : List Nat} :
    ∀ w ∈ (bfsRound es inc fr).2, w ∉ inc := by
  unfold bfsRound
  rw [foldl_expand_eq]
  exact insertFold_snd_fresh (by simp) (by simp)

lemma bfsRound_snd_mem {es : List EdgeData} {inc fr : List Nat} {w : Nat} :
    w ∈ (bfsRound es inc fr).2 ↔
      w ∉ inc ∧ w ∈ (bfsRound es inc fr).1 := by
  constructor
  · intro h
    refine ⟨bfsRound_snd_fresh w h, ?_⟩
    rw [bfsRound_fst_append]
    exact List.mem_append.mpr (Or.inr h)
  · rintro ⟨hni, hf⟩
    rw [bfsRound_fst_append] at hf
    rcases List.mem_append.mp hf with h1 | h1
    · exact absurd h1 hni
    · exact h1

lemma distLE_zero {es : List EdgeData} {c v : Nat} :
    distLE es c 0 v = true ↔ v = c := by
  simp [distLE]

lemma distLE_succ {es : List EdgeData} {c k v : Nat} :
    distLE es c (k + 1) v = true ↔
      distLE es c k v = true ∨ ∃ m ∈ nbrs es v, distLE es c k m = true := by
  simp [distLE, List.any_eq_true]

lemma distLE_mono {es : List EdgeData} {c k v : Nat}
    (h : distLE es c k v = true) : distLE es c (k + 1) v = true :=
  distLE_succ.mpr (Or.inl h)

lemma distLE_of_nbr {es : List EdgeData} {c k m v : Nat}
    (hm : m ∈ nbrs es v) (h : distLE es c k m = true) :
    distLE es c (k + 1) v = true :=
  distLE_succ.mpr (Or.inr ⟨m, hm, h⟩)

lemma distEq_zero {es : List EdgeData} {c v : Nat} :
    distEq es c 0 v = true ↔ v = c := by
  simp [distEq]

lemma distEq_succ {es : List EdgeData} {c k v : Nat} :
    distEq es c (k + 1) v = true ↔
      distLE es c (k + 1) v = true ∧ distLE es c k v = false := by
  simp [distEq]

lemma distEq_le {es : List EdgeData} {c k v : Nat}
    (h : distEq es c k v = true) : distLE es c k v = true := by
  cases k with
  | zero => simpa [distEq, distLE] using h
  | succ k => exact (distEq_succ.mp h).1

lemma distLE_succ_frontier {es : List EdgeData} {c j v : Nat} :
    distLE es c (j + 1) v = true ↔
      distLE es c j v = true ∨
        ∃ u, distEq es c j u = true ∧ u ∈ nbrs es v := by
  constructor
  · intro h
    rcases distLE_succ.mp h with h1 | ⟨m, hm, hle⟩
    · exact Or.inl h1
    · by_cases hv : distLE es c j v = true
      · exact Or.inl hv
      · cases j with
        | zero =>
          exact Or.inr ⟨m, distEq_zero.mpr (distLE_zero.mp hle), hm⟩
        | succ j2 =>
          by_cases hm2 : distLE es c j2 m = true
          · exact absurd (distLE_of_nbr hm hm2) hv
          · exact Or.inr ⟨m, distEq_succ.mpr ⟨hle, Bool.eq_false_iff.mpr hm2⟩, hm⟩
  · rintro (h | ⟨u, hu, hun⟩)
    · exact distLE_mono h
    · exact distLE_of_nbr hun (distEq_le hu)

lemma bfsLoop_mem (es : List EdgeData) (c : Nat) :
    ∀ (k j : Nat) (inc fr : List Nat),
      (∀ v, v ∈ inc ↔ distLE es c j v = true) →
      (∀ v, v ∈ fr ↔ distEq es c j v = true) →
      ∀ v, v ∈ bfsLoop es k inc fr ↔ distLE es c (j + k) v = true := by
  intro k
  induction k with
  | zero =>
    intro j inc fr hinc _ v
    simpa using hinc v
  | succ k ih =>
    intro j inc fr hinc hfr v
    show v ∈ bfsLoop es k (bfsRound es inc fr).1 (bfsRound es inc fr).2 ↔ _
    have hinc2 : ∀ w, w ∈ (bfsRound es inc fr).1 ↔
        distLE es c (j + 1) w = true := by
      intro w
      rw [bfsRound_fst_mem, distLE_succ_frontier]
      constructor
      · rintro (h | ⟨u, hu, hw⟩)
        · exact Or.inl ((hinc w).mp h)
        · exact Or.inr ⟨u, (hfr u).mp hu, mem_nbrs_symm.mp hw⟩
      · rintro (h | ⟨u, hu, hw⟩)
        · exact Or.inl ((hinc w).mpr h)
        · exact Or.inr ⟨u, (hfr u).mpr hu, mem_nbrs_symm.mpr hw⟩
    have hfr2 : ∀ w, w ∈ (bfsRound es inc fr).2 ↔
        distEq es c (j + 1) w = true := by
      intro w
      rw [bfsRound_snd_mem, hinc2 w, distEq_succ]
      constructor
      · rintro ⟨hni, hle⟩
        refine ⟨hle, ?_⟩
        cases hb : distLE es c j w
        · rfl
        · exact absurd ((hinc w).mpr hb) hni
      · rintro ⟨hle, hf⟩
        refine ⟨fun hmem => ?_, hle⟩
        rw [(hinc w).mp hmem] at hf
        exact Bool.noConfusion hf
    have hres := ih (j + 1) _ _ hinc2 hfr2 v
    rw [show j + (k + 1) = (j + 1) + k by omega]
    exact hres

/-- Claim C2: for every graph, valid center index and hop count, a node
is collected by the extraction BFS iff its undirected BFS distance from
the center is at most the hop count; zero hops yield exactly the
singleton containing the center. -/
theorem C2_ego_membership (g : GraphData) (c hops n : Nat)
    (hc : c < g.nodes.length) :
    (n ∈ egoInclude g.edges c hops ↔ distLE g.edges c hops n = true) ∧
    egoInclude g.edges c 0 = [c] := by
  constructor
  · have hres := bfsLoop_mem g.edges c hops 0 [c] [c]
      (fun v => by simp [distLE_zero]) (fun v => by simp [distEq_zero]) n
    simpa using hres
  · rfl

/-- Witness for C2 on the two-node path graph `gPath` with center 0. -/
theorem C2_witness :
    0 < gPath.nodes.length ∧
    ((1 ∈ egoInclude gPath.edges 0 1 ↔ distLE gPath.edges 0 1 1 = true) ∧
      egoInclude gPath.edges 0 0 = [0]) :=
  ⟨by decide, C2_ego_membership gPath 0 1 1 (by decide)⟩

/-- Claim C3: every edge of an extracted ego graph is the remap of a
parent edge whose both endpoints are included, and references only
valid new-space indices; conversely every parent edge with both
endpoints included appears remapped in the ego graph. -/
theorem C3_ego_edges (g : GraphData) (c hops : Nat) :
    (∀ e2 ∈ (extract_ego_graph g c hops).edges,
      e2.fromIdx < (extract_ego_graph g c hops).nodes.length ∧
      e2.toIdx < (extract_ego_graph g c hops).nodes.length ∧
      ∃ e ∈ g.edges, e.fromIdx ∈ egoInclude g.edges c hops ∧
        e.toIdx ∈ egoInclude g.edges c hops ∧
        idxOf? (egoInclude g.edges c hops) e.fromIdx = some e2.fromIdx ∧
        idxOf? (egoInclude g.edges c hops) e.toIdx = some e2.toIdx) ∧
    (∀ e ∈ g.edges, e.fromIdx ∈ egoInclude g.edges c hops →
      e.toIdx ∈ egoInclude g.edges c hops →
      ∃ e2 ∈ (extract_ego_graph g c hops).edges,
        idxOf? (egoInclude g.edges c hops) e.fromIdx = some e2.fromIdx ∧
        idxOf? (egoInclude g.edges c hops) e.toIdx = some e2.toIdx) := by
  have hlen : (extract_ego_graph g c hops).nodes.length =
      (egoInclude g.edges c hops).length := by
    simp [extract_ego_graph]
  constructor
  · intro e2 he2
    simp only [extract_ego_graph, List.mem_filterMap] at he2
    obtain ⟨e, he, hre⟩ := he2
    obtain ⟨a, b, ha, hb, rfl⟩ := mem_remapEdge hre
    refine ⟨?_, ?_, e, he, idxOf?_mem ha, idxOf?_mem hb, ha, hb⟩
    · rw [hlen]
      exact idxOf?_lt ha
    · rw [hlen]
      exact idxOf?_lt hb
  · intro e he hf ht
    obtain ⟨a, ha⟩ := mem_idxOf? hf
    obtain ⟨b, hb⟩ := mem_idxOf? ht
    refine ⟨⟨a, b⟩, ?_, ha, hb⟩
    simp only [extract_ego_graph, List.mem_filterMap]
    refine ⟨e, he, ?_⟩
    unfold remapEdge
    rw [ha, hb]

/-- Witness for C3 on `gPath`: the parent edge `(0, 1)` has both
endpoints in the 1-hop ego set of center 0 and appears remapped. -/
theorem C3_witness :
    ∃ e2 ∈ (extract_ego_graph gPath 0 1).edges,
      idxOf? (egoInclude gPath.edges 0 1) 0 = some e2.fromIdx ∧
      idxOf? (egoInclude gPath.edges 0 1) 1 = some e2.toIdx :=
  (C3_ego_edges gPath 0 1).2 ⟨0, 1⟩ (by decide) (by decide) (by decide)

lemma applyOp_full_graph (s : AppState) (op : AppOp) :
    (applyOp s op).full_graph = s.full_graph := by
  cases op with
  | extractOp c h => rfl
  | resetOp => rfl
  | stepOp =>
    unfold applyOp apply_forces
    by_cases hb : s.simulation_running = false
    · rw [if_pos hb]
    · rw [if_neg hb]

lemma runOps_full_graph (ops : List AppOp) :
    ∀ s : AppState, (runOps s ops).full_graph = s.full_graph := by
  induction ops with
  | nil => intro s; rfl
  | cons op t ih =>
    intro s
    show (runOps (applyOp s op) t).full_graph = s.full_graph
    rw [ih (applyOp s op), applyOp_full_graph]

lemma runOps_append (l1 l2 : List AppOp) :
    ∀ s : AppState, runOps s (l1 ++ l2) = runOps (runOps s l1) l2 := by
  induction l1 with
  | nil => intro s; rfl
  | cons op t ih => intro s; exact ih (applyOp s op)

/-- Claim C9: however many ego extractions, resets and simulation
steps run after construction, the retained `full_graph` stays equal to
the originally built graph (names, positions, orphan flags and edges
alike), and a reset always restores exactly that original graph as the
active view. -/
theorem C9_full_graph_preserved (g : GraphData) (ops : List AppOp) :
    (runOps (newViewer g) ops).full_graph = g ∧
    (runOps (newViewer g) (ops ++ [AppOp.resetOp])).graph = g := by
  constructor
  · rw [runOps_full_graph]
    rfl
  · rw [runOps_append]
    show (runOps (newViewer g) ops).full_graph = g
    rw [runOps_full_graph]
    rfl

lemma applyOp_vel_len {s : AppState}
    (h : s.velocities.length = s.graph.nodes.length) (op : AppOp) :
    (applyOp s op).velocities.length = (applyOp s op).graph.nodes.length := by
  cases op with
  | extractOp c hop => simp [applyOp, extract_ego_network]
  | resetOp => simp [applyOp, reset_to_full_graph]
  | stepOp =>
    unfold applyOp apply_forces
    by_cases hb : s.simulation_running = false
    · rw [if_pos hb]
      exact h
    · rw [if_neg hb]
      simp [stepSim]

/-- Claim C10: after construction and any sequence of extractions,
resets and simulation steps, the velocity vector has exactly one entry
per node of the active graph, so every velocity index a simulation
step touches (an index below the node count) is in bounds. -/
theorem C10_velocities_length (g : GraphData) (ops : List AppOp) :
    (runOps (newViewer g) ops).velocities.length =
      (runOps (newViewer g) ops).graph.nodes.length ∧
    ∀ i < (runOps (newViewer g) ops).graph.nodes.length,
      i < (runOps (newViewer g) ops).velocities.length := by
  have key : ∀ (l : List AppOp) (s : AppState),
      s.velocities.length = s.graph.nodes.length →
      (runOps s l).velocities.length = (runOps s l).graph.nodes.length := by
    intro l
    induction l with
    | nil => intro s h; exact h
    | cons op t ih => intro s h; exact ih _ (applyOp_vel_len h op)
  have h0 : (newViewer g).velocities.length =
      (newViewer g).graph.nodes.length := by
    simp [newViewer]
  have h1 := key ops _ h0
  exact ⟨h1, fun i hi => by omega⟩

lemma stepSim_vels (g : GraphData) (vs : List (ℚ × ℚ)) :
    (stepSim g vs).vels = (List.range g.nodes.length).map fun i =>
      (((vs.getD i (0, 0)).1 + ((computeForces g).getD i (0, 0)).1) * damping,
       ((vs.getD i (0, 0)).2 + ((computeForces g).getD i (0, 0)).2) * damping) :=
  rfl

lemma stepSim_nodes (g : GraphData) (vs : List (ℚ × ℚ)) :
    (stepSim g vs).nodes = (List.range g.nodes.length).map fun i =>
      { g.nodes.getD i dNode with
          x := (g.nodes.getD i dNode).x + ((stepSim g vs).vels.getD i (0, 0)).1,
          y := (g.nodes.getD i dNode).y + ((stepSim g vs).vels.getD i (0, 0)).2 } :=
  rfl

lemma stepSim_energy (g : GraphData) (vs : List (ℚ × ℚ)) :
    (stepSim g vs).energy = energyOf ((stepSim g vs).vels) :=
  rfl

lemma getD_replicate_zero :
    ∀ (n i : Nat), (List.replicate n ((0 : ℚ), (0 : ℚ))).getD i (0, 0) = (0, 0) := by
  intro n
  induction n with
  | zero => intro i; simp
  | succ n ih =>
    intro i
    cases i with
    | zero => simp [List.replicate_succ]
    | succ i =>
      rw [List.replicate_succ, List.getD_cons_succ]
      exact ih i

lemma range_map_getD {α β : Type} (l : List α) (d : α) (φ : α → β) :
    (List.range l.length).map (fun i => φ (l.getD i d)) = l.map φ := by
  induction l with
  | nil => rfl
  | cons a t ih =>
    rw [List.length_cons, List.range_succ_eq_map, List.map_cons, List.map_cons,
      List.map_map]
    have hfun : ((fun i => φ ((a :: t).getD i d)) ∘ Nat.succ) =
        fun i => φ (t.getD i d) := by
      funext i
      simp [List.getD_cons_succ]
    rw [hfun, ih]
    simp

lemma energyOf_acc (l : List (ℚ × ℚ)) :
    ∀ acc : ℚ,
      l.foldl (fun a v => a + v.1 * v.1 + v.2 * v.2) acc = acc + energyOf l := by
  induction l with
  | nil => intro acc; simp [energyOf]
  | cons v t ih =>
    intro acc
    rw [List.foldl_cons, ih]
    have h2 : energyOf (v :: t) = 0 + v.1 * v.1 + v.2 * v.2 + energyOf t := by
      have h3 : energyOf (v :: t) =
          List.foldl (fun a v => a + v.1 * v.1 + v.2 * v.2)
            (0 + v.1 * v.1 + v.2 * v.2) t := rfl
      rw [h3, ih]
    rw [h2]
    ring

lemma energyOf_cons (v : ℚ × ℚ) (t : List (ℚ × ℚ)) :
    energyOf (v :: t) = v.1 * v.1 + v.2 * v.2 + energyOf t := by
  have h3 : energyOf (v :: t) =
      List.foldl (fun a v => a + v.1 * v.1 + v.2 * v.2)
        (0 + v.1 * v.1 + v.2 * v.2) t := rfl
  rw [h3, energyOf_acc]
  ring

lemma energyOf_nonneg (l : List (ℚ × ℚ)) : 0 ≤ energyOf l := by
  induction l with
  | nil => simp [energyOf]
  | cons v t ih =>
    rw [energyOf_cons]
    have h1 := mul_self_nonneg v.1
    have h2 := mul_self_nonneg v.2
    linarith

lemma energyOf_scale (l : List (ℚ × ℚ)) :
    energyOf (l.map (fun v => (v.1 * damping, v.2 * damping))) =
      damping * damping * energyOf l := by
  induction l with
  | nil => simp [energyOf]
  | cons v t ih =>
    rw [List.map_cons, energyOf_cons, energyOf_cons, ih]
    ring

lemma stepSim_vels_zero_force {g : GraphData} {vs : List (ℚ × ℚ)}
    (hlen : vs.length = g.nodes.length)
    (hforce : computeForces g = List.replicate g.nodes.length (0, 0)) :
    (stepSim g vs).vels = vs.map (fun v => (v.1 * damping, v.2 * damping)) := by
  rw [stepSim_vels, ← hlen,
    ← range_map_getD vs (0, 0) (fun v => (v.1 * damping, v.2 * damping))]
  apply List.map_congr_left
  intro i _
  rw [hforce, ← hlen, getD_replicate_zero]
  simp

/-- Claim C7 (amended): when the forces computed for the state reached
by a simulation step all vanish, the next step's reported kinetic
energy equals `damping²` (= 0.81) times the preceding report, hence is
non-increasing; with nonzero forces the energy can grow (see the
counterexample), so monotonicity holds only in this force-free form. -/
theorem C7_energy_decay (g : GraphData) (vs : List (ℚ × ℚ))
    (hforce : computeForces { g with nodes := (stepSim g vs).nodes } =
      List.replicate g.nodes.length (0, 0)) :
    (stepSim { g with nodes := (stepSim g vs).nodes } (stepSim g vs).vels).energy =
      damping * damping * (stepSim g vs).energy ∧
    (stepSim { g with nodes := (stepSim g vs).nodes } (stepSim g vs).vels).energy ≤
      (stepSim g vs).energy := by
  have hnlen : ({ g with nodes := (stepSim g vs).nodes } : GraphData).nodes.length =
      g.nodes.length := by
    simp [stepSim]
  have hlen2 : (stepSim g vs).vels.length =
      ({ g with nodes := (stepSim g vs).nodes } : GraphData).nodes.length := by
    rw [hnlen]
    simp [stepSim]
  have hforce2 : computeForces { g with nodes := (stepSim g vs).nodes } =
      List.replicate
        ({ g with nodes := (stepSim g vs).nodes } : GraphData).nodes.length
        (0, 0) := by
    rw [hforce, hnlen]
  have hv := stepSim_vels_zero_force hlen2 hforce2
  have he : (stepSim { g with nodes := (stepSim g vs).nodes }
      (stepSim g vs).vels).energy = damping * damping * (stepSim g vs).energy := by
    rw [stepSim_energy, hv, energyOf_scale, ← stepSim_energy]
  refine ⟨he, ?_⟩
  rw [he]
  have hE : 0 ≤ (stepSim g vs).energy := by
    rw [stepSim_energy]
    exact energyOf_nonneg _
  have hd : damping * damping = 81 / 100 := by
    unfold damping
    norm_num
  rw [hd]
  linarith

/-- Witness for C7 on the one-node graph `gOneV` with initial velocity
(1, 0): all computed forces vanish, so the energy report shrinks. -/
theorem C7_witness :
    computeForces { gOneV with nodes := (stepSim gOneV [(1, 0)]).nodes } =
      List.replicate gOneV.nodes.length (0, 0) ∧
    (stepSim { gOneV with nodes := (stepSim gOneV [(1, 0)]).nodes }
        (stepSim gOneV [(1, 0)]).vels).energy ≤
      (stepSim gOneV [(1, 0)]).energy := by
  have hf : computeForces { gOneV with nodes := (stepSim gOneV [(1, 0)]).nodes } =
      List.replicate gOneV.nodes.length (0, 0) := rfl
  exact ⟨hf, (C7_energy_decay gOneV [(1, 0)] hf).2⟩

lemma attrForce_same {nodes : List NodeData} {e : EdgeData}
    (hsame : nodes.getD e.fromIdx dNode = nodes.getD e.toIdx dNode) :
    attrForce nodes e = (0, 0) := by
  unfold attrForce
  rw [hsame]
  simp

lemma applyAttr_single (a : NodeData) :
    ∀ (edges : List EdgeData),
      (∀ e ∈ edges, e.fromIdx = 0 ∧ e.toIdx = 0) →
      applyAttr [a] edges [(0, 0)] = [(0, 0)] := by
  intro edges
  induction edges with
  | nil => intro _; rfl
  | cons e t ih =>
    intro h
    obtain ⟨hf, ht⟩ := h e (List.mem_cons_self e t)
    have hstep : applyAttr [a] (e :: t) [(0, 0)] =
        applyAttr [a] t
          (addForce (addForce [(0, 0)] e.fromIdx (attrForce [a] e)) e.toIdx
            (-(attrForce [a] e).1, -(attrForce [a] e).2)) := rfl
    have hforce : attrForce [a] e = (0, 0) := by
      apply attrForce_same
      rw [hf, ht]
    have haf : addForce (addForce [(0, 0)] e.fromIdx (attrForce [a] e)) e.toIdx
        (-(attrForce [a] e).1, -(attrForce [a] e).2) = [(0, 0)] := by
      rw [hforce, hf, ht]
      simp [addForce]
    rw [hstep, haf]
    exact ih fun e2 he2 => h e2 (List.mem_cons_of_mem e he2)

lemma computeForces_single {g : GraphData} {a : NodeData}
    (hone : g.nodes = [a])
    (he : ∀ e ∈ g.edges, e.fromIdx = 0 ∧ e.toIdx = 0) :
    computeForces g = [(0, 0)] := by
  unfold computeForces
  rw [hone]
  have hrep : applyRep [a]
      (List.replicate ([a] : List NodeData).length (0, 0)) = [(0, 0)] := rfl
  rw [hrep]
  exact applyAttr_single a g.edges he

/-- Claim C8: on a graph with at most one node (edges valid per the
index-validity invariant), a simulation step from zero velocities
reports zero kinetic energy, leaves every node position unchanged, and
keeps the zero velocities; every velocity index it touches is in
bounds (the distance floor `max d 1` also rules out division by zero,
which the `ℚ` model reflects by never dividing by the raw distance). -/
theorem C8_degenerate_safe (g : GraphData) (vs : List (ℚ × ℚ))
    (hn : g.nodes.length ≤ 1)
    (hv : vs = List.replicate g.nodes.length (0, 0))
    (he : ∀ e ∈ g.edges, e.fromIdx < g.nodes.length ∧
      e.toIdx < g.nodes.length) :
    (stepSim g vs).energy = 0 ∧ (stepSim g vs).nodes = g.nodes ∧
    (stepSim g vs).vels = vs ∧
    ∀ e ∈ g.edges, e.fromIdx < vs.length ∧ e.toIdx < vs.length := by
  have hvlen : vs.length = g.nodes.length := by
    rw [hv, List.length_replicate]
  have hbounds : ∀ e ∈ g.edges, e.fromIdx < vs.length ∧ e.toIdx < vs.length := by
    intro e he2
    rw [hvlen]
    exact he e he2
  have hcase : g.nodes = [] ∨ ∃ a, g.nodes = [a] := by
    cases hl : g.nodes with
    | nil => exact Or.inl rfl
    | cons a t =>
      cases ht : t with
      | nil => exact Or.inr ⟨a, rfl⟩
      | cons b t2 =>
        rw [hl, ht] at hn
        simp at hn
  rcases hcase with hnil | ⟨a, hone⟩
  · have hvnil : vs = [] := by
      rw [hv, hnil]
      rfl
    have hvels : (stepSim g vs).vels = [] := by
      rw [stepSim_vels, hnil]
      rfl
    refine ⟨?_, ?_, ?_, hbounds⟩
    · rw [stepSim_energy, hvels]
      rfl
    · rw [stepSim_nodes, hnil]
      rfl
    · rw [hvels, hvnil]
  · have he0 : ∀ e ∈ g.edges, e.fromIdx = 0 ∧ e.toIdx = 0 := by
      intro e he2
      have := he e he2
      rw [hone] at this
      simp at this
      omega
    have hcf : computeForces g = [(0, 0)] := computeForces_single hone he0
    have hvone : vs = [(0, 0)] := by
      rw [hv, hone]
      rfl
    have hvels : (stepSim g vs).vels = [(0, 0)] := by
      rw [stepSim_vels, hcf, hvone, hone]
      norm_num
    refine ⟨?_, ?_, ?_, hbounds⟩
    · rw [stepSim_energy, hvels]
      have : energyOf [((0 : ℚ), (0 : ℚ))] = 0 := by
        rw [energyOf_cons]
        norm_num [energyOf]
      exact this
    · rw [stepSim_nodes, hvels, hone]
      obtain ⟨nm, ax, ay, ao⟩ := a
      norm_num
      have hr1 : List.range 1 = [0] := rfl
      rw [hr1]
      simp
    · rw [hvels, hvone]

/-- Witness for C8 on the one-node graph `gOne` (which carries a valid
self-loop edge) from zero velocities. -/
theorem C8_witness :
    (gOne.nodes.length ≤ 1 ∧
      [((0 : ℚ), (0 : ℚ))] = List.replicate gOne.nodes.length (0, 0) ∧
      ∀ e ∈ gOne.edges, e.fromIdx < gOne.nodes.length ∧
        e.toIdx < gOne.nodes.length) ∧
    (stepSim gOne [(0, 0)]).energy = 0 ∧
    (stepSim gOne [(0, 0)]).nodes = gOne.nodes ∧
    (stepSim gOne [(0, 0)]).vels = [(0, 0)] ∧
    ∀ e ∈ gOne.edges, e.fromIdx < ([((0 : ℚ), (0 : ℚ))] : List (ℚ × ℚ)).length ∧
      e.toIdx < ([((0 : ℚ), (0 : ℚ))] : List (ℚ × ℚ)).length :=
  ⟨⟨by decide, rfl, by decide⟩,
    C8_degenerate_safe gOne [(0, 0)] (by decide) rfl (by decide)⟩

lemma stepSim_two (nm1 nm2 : String) (x1 x2 v1 v2 F : ℚ) (o1 o2 : Bool)
    (h : 1 ≤ x2 - x1) (hF : F = 5000 / ((x2 - x1) * (x2 - x1))) :
    stepSim ⟨[⟨nm1, x1, 0, o1⟩, ⟨nm2, x2, 0, o2⟩], [], []⟩ [(v1, 0), (v2, 0)] =
      ⟨[⟨nm1, x1 + (v1 - F) * (9 / 10), 0, o1⟩,
        ⟨nm2, x2 + (v2 + F) * (9 / 10), 0, o2⟩],
       [((v1 - F) * (9 / 10), 0), ((v2 + F) * (9 / 10), 0)],
       ((v1 - F) * (9 / 10)) * ((v1 - F) * (9 / 10)) +
         ((v2 + F) * (9 / 10)) * ((v2 + F) * (9 / 10))⟩ := by
  have hpos : 0 < x2 - x1 := by linarith
  have hne : x2 - x1 ≠ 0 := ne_of_gt hpos
  have hsq : Rat.sqrt ((x2 - x1) * (x2 - x1) + ((0 : ℚ) - 0) * (0 - 0)) =
      x2 - x1 := by
    have h0 : (x2 - x1) * (x2 - x1) + ((0 : ℚ) - 0) * (0 - 0) =
        (x2 - x1) * (x2 - x1) := by ring
    rw [h0, Rat.sqrt_eq, abs_of_pos hpos]
  have hrf : repForce [⟨nm1, x1, 0, o1⟩, ⟨nm2, x2, 0, o2⟩] 0 1 = (F, 0) := by
    simp only [repForce, List.getD_cons_zero, List.getD_cons_succ]
    rw [hsq, max_eq_left h, div_self hne, hF]
    norm_num [repulsion]
  have hforces :
      computeForces ⟨[⟨nm1, x1, 0, o1⟩, ⟨nm2, x2, 0, o2⟩], [], []⟩ =
        [(-F, 0), (F, 0)] := by
    have h1 : computeForces ⟨[⟨nm1, x1, 0, o1⟩, ⟨nm2, x2, 0, o2⟩], [], []⟩ =
        addForce
          (addForce [(0, 0), (0, 0)] 0
            (-(repForce [⟨nm1, x1, 0, o1⟩, ⟨nm2, x2, 0, o2⟩] 0 1).1,
             -(repForce [⟨nm1, x1, 0, o1⟩, ⟨nm2, x2, 0, o2⟩] 0 1).2))
          1 (repForce [⟨nm1, x1, 0, o1⟩, ⟨nm2, x2, 0, o2⟩] 0 1) := rfl
    rw [h1, hrf]
    simp [addForce]
  have hvels :
      (stepSim ⟨[⟨nm1, x1, 0, o1⟩, ⟨nm2, x2, 0, o2⟩], [], []⟩
        [(v1, 0), (v2, 0)]).vels =
      [((v1 - F) * (9 / 10), 0), ((v2 + F) * (9 / 10), 0)] := by
    rw [stepSim_vels, hforces]
    have hr2 : List.range
        (([⟨nm1, x1, 0, o1⟩, ⟨nm2, x2, 0, o2⟩] : List NodeData).length) =
        [0, 1] := rfl
    show List.map _ (List.range
      (([⟨nm1, x1, 0, o1⟩, ⟨nm2, x2, 0, o2⟩] : List NodeData).length)) = _
    rw [hr2]
    simp only [List.map_cons, List.map_nil, List.getD_cons_zero,
      List.getD_cons_succ]
    norm_num [damping]
    all_goals ring
  have hnodes :
      (stepSim ⟨[⟨nm1, x1, 0, o1⟩, ⟨nm2, x2, 0, o2⟩], [], []⟩
        [(v1, 0), (v2, 0)]).nodes =
      [⟨nm1, x1 + (v1 - F) * (9 / 10), 0, o1⟩,
       ⟨nm2, x2 + (v2 + F) * (9 / 10), 0, o2⟩] := by
    rw [stepSim_nodes, hvels]
    have hr2 : List.range
        (([⟨nm1, x1, 0, o1⟩, ⟨nm2, x2, 0, o2⟩] : List NodeData).length) =
        [0, 1] := rfl
    show List.map _ (List.range
      (([⟨nm1, x1, 0, o1⟩, ⟨nm2, x2, 0, o2⟩] : List NodeData).length)) = _
    rw [hr2]
    simp only [List.map_cons, List.map_nil, List.getD_cons_zero,
      List.getD_cons_succ]
    norm_num
  have henergy :
      (stepSim ⟨[⟨nm1, x1, 0, o1⟩, ⟨nm2, x2, 0, o2⟩], [], []⟩
        [(v1, 0), (v2, 0)]).energy =
      ((v1 - F) * (9 / 10)) * ((v1 - F) * (9 / 10)) +
        ((v2 + F) * (9 / 10)) * ((v2 + F) * (9 / 10)) := by
    rw [stepSim_energy, hvels, energyOf_cons, energyOf_cons]
    have hnil : energyOf [] = 0 := rfl
    rw [hnil]
    ring
  have hsplit : stepSim ⟨[⟨nm1, x1, 0, o1⟩, ⟨nm2, x2, 0, o2⟩], [], []⟩
      [(v1, 0), (v2, 0)] =
      ⟨(stepSim ⟨[⟨nm1, x1, 0, o1⟩, ⟨nm2, x2, 0, o2⟩], [], []⟩
          [(v1, 0), (v2, 0)]).nodes,
       (stepSim ⟨[⟨nm1, x1, 0, o1⟩, ⟨nm2, x2, 0, o2⟩], [], []⟩
          [(v1, 0), (v2, 0)]).vels,
       (stepSim ⟨[⟨nm1, x1, 0, o1⟩, ⟨nm2, x2, 0, o2⟩], [], []⟩
          [(v1, 0), (v2, 0)]).energy⟩ := rfl
  rw [hsplit, hnodes, hvels, henergy]

/-- Claim C7, original form, refuted: starting `gTwo` (two nodes 100
apart, no edges) from rest, the first simulation step reports kinetic
energy `81/200` and produces the state `(c7nodes1, c7vels1)`; the
immediately following step reports a STRICTLY LARGER energy (the
repulsion keeps accelerating both nodes), so the reported total
kinetic energy is not non-increasing from one tick to the next. -/
theorem C7_counterexample :
    stepSim gTwo [(0, 0), (0, 0)] = ⟨c7nodes1, c7vels1, 81 / 200⟩ ∧
    81 / 200 < (stepSim ⟨c7nodes1, [], []⟩ c7vels1).energy := by
  have h1 := stepSim_two ("a") ("b") 0 100 0 0 (1 / 2) false false
    (by norm_num) (by norm_num)
  constructor
  · show stepSim ⟨[⟨"a", 0, 0, false⟩, ⟨"b", 100, 0, false⟩], [], []⟩
      [(0, 0), (0, 0)] = ⟨c7nodes1, c7vels1, 81 / 200⟩
    rw [h1]
    unfold c7nodes1 c7vels1
    norm_num
  · have h2 := stepSim_two ("a") ("b") (-9 / 20) (2009 / 20) (-9 / 20) (9 / 20)
      (500000 / 1018081) false false (by norm_num) (by norm_num)
    show 81 / 200 < (stepSim ⟨[⟨"a", -9 / 20, 0, false⟩,
      ⟨"b", 2009 / 20, 0, false⟩], [], []⟩ [(-9 / 20, 0), (9 / 20, 0)]).energy
    rw [h2]
    norm_num

/-- Witness for C10 on `gOne` after one extraction and one step. -/
theorem C10_witness :
    0 < (runOps (newViewer gOne)
      [AppOp.extractOp 0 1, AppOp.stepOp]).graph.nodes.length ∧
    0 < (runOps (newViewer gOne)
      [AppOp.extractOp 0 1, AppOp.stepOp]).velocities.length :=
  ⟨by decide,
    (C10_velocities_length gOne [AppOp.extractOp 0 1, AppOp.stepOp]).2 0
      (by decide)⟩
